import Mathlib

/-!
Verification of the `Rect` iterators of `src/layout/rect/iter.rs` (the `Rows`,
`Columns` and `Positions` iterators) and of the `Points` canvas shape of
`ratatui-widgets/src/canvas/points.rs`.

The source works on `u16` values.  We embed `u16` as `Nat` together with
explicit bounds (`≤ 65535`) and explicit wrapping (`% 65536`) at each plain
(non-saturating) increment, so that overflow behaviour is visible in the
model.  Rust's `u16::saturating_sub` coincides with truncated `Nat`
subtraction, `u16::saturating_add a b` is `min (a + b) 65535` and
`u16::saturating_mul a b` is `min (a * b) 65535`.
-/

set_option maxHeartbeats 1000000

/-- Modelled from the spec: the `Rect` region collaborator (not part of the
analysed sources) is an immutable value with unsigned 16-bit fields
`x`, `y`, `width`, `height`. -/
structure Rect where
  x : Nat
  y : Nat
  width : Nat
  height : Nat
deriving DecidableEq, Repr

/-- Modelled from the spec: `Rect::new` stores the given origin and extents. -/
def Rect.new (x y width height : Nat) : Rect :=
  ⟨x, y, width, height⟩

/-- Modelled from the spec: `right = x + width` computed with saturating
addition at the type's maximum. -/
def Rect.right (r : Rect) : Nat :=
  min (r.x + r.width) 65535

/-- Modelled from the spec: `bottom = y + height` computed with saturating
addition at the type's maximum. -/
def Rect.bottom (r : Rect) : Nat :=
  min (r.y + r.height) 65535

/-- A `Rect` whose four fields all fit in `u16`. -/
def Rect.isU16 (r : Rect) : Prop :=
  r.x ≤ 65535 ∧ r.y ≤ 65535 ∧ r.width ≤ 65535 ∧ r.height ≤ 65535

instance (r : Rect) : Decidable r.isU16 := by
  unfold Rect.isU16; infer_instance

/-- The `Position` value yielded by the `Positions` iterator. -/
structure Position where
  x : Nat
  y : Nat
deriving DecidableEq, Repr

/-- `Position::new`. -/
def Position.new (x y : Nat) : Position :=
  ⟨x, y⟩

/-- The `Rows` iterator state: the source `Rect` plus a forward and a
backward cursor along the y axis. -/
structure Rows where
  rect : Rect
  current_row_fwd : Nat
  current_row_back : Nat
deriving DecidableEq, Repr

/-- `Rows::new`: forward cursor at `rect.y`, backward cursor at
`rect.bottom()`. -/
def Rows.new (rect : Rect) : Rows :=
  ⟨rect, rect.y, rect.bottom⟩

/-- `Rows::next`: when `current_row_fwd >= current_row_back` yield nothing,
otherwise yield `Rect::new(rect.x, current_row_fwd, rect.width, 1)` and
increment the forward cursor (plain `u16` increment, hence the `% 65536`). -/
def Rows.next (s : Rows) : Option Rect × Rows :=
  if s.current_row_fwd ≥ s.current_row_back then
    (none, s)
  else
    (some (Rect.new s.rect.x s.current_row_fwd s.rect.width 1),
     ⟨s.rect, (s.current_row_fwd + 1) % 65536, s.current_row_back⟩)

/-- `Rows::size_hint` lower bound:
`height - (current_row_fwd - rect.y) - (rect.bottom() - current_row_back)`,
every subtraction saturating (truncated `Nat` subtraction); the upper bound
in the source is `None`. -/
def Rows.size_hint (s : Rows) : Nat × Option Nat :=
  ((s.rect.height - (s.current_row_fwd - s.rect.y)) - (s.rect.bottom - s.current_row_back),
   none)

/-- `Rows::next_back`: when `current_row_back <= current_row_fwd` yield
nothing, otherwise decrement the backward cursor first and yield the row at
the decremented cursor.  The guard makes the plain `u16` decrement safe, and
on `Nat` it is exactly `- 1`. -/
def Rows.next_back (s : Rows) : Option Rect × Rows :=
  if s.current_row_back ≤ s.current_row_fwd then
    (none, s)
  else
    (some (Rect.new s.rect.x (s.current_row_back - 1) s.rect.width 1),
     ⟨s.rect, s.current_row_fwd, s.current_row_back - 1⟩)

/-- The `Columns` iterator state: the source `Rect` plus a forward and a
backward cursor along the x axis. -/
structure Columns where
  rect : Rect
  current_column_fwd : Nat
  current_column_back : Nat
deriving DecidableEq, Repr

/-- `Columns::new`: forward cursor at `rect.x`, backward cursor at
`rect.right()`. -/
def Columns.new (rect : Rect) : Columns :=
  ⟨rect, rect.x, rect.right⟩

/-- `Columns::next`: when `current_column_fwd >= current_column_back` yield
nothing, otherwise yield `Rect::new(current_column_fwd, rect.y, 1,
rect.height)` and increment the forward cursor. -/
def Columns.next (s : Columns) : Option Rect × Columns :=
  if s.current_column_fwd ≥ s.current_column_back then
    (none, s)
  else
    (some (Rect.new s.current_column_fwd s.rect.y 1 s.rect.height),
     ⟨s.rect, (s.current_column_fwd + 1) % 65536, s.current_column_back⟩)

/-- `Columns::size_hint` lower bound:
`width - (current_column_fwd - rect.x) - (rect.right() - current_column_back)`,
every subtraction saturating. -/
def Columns.size_hint (s : Columns) : Nat × Option Nat :=
  ((s.rect.width - (s.current_column_fwd - s.rect.x)) - (s.rect.right - s.current_column_back),
   none)

/-- `Columns::next_back`: when `current_column_back <= current_column_fwd`
yield nothing, otherwise decrement the backward cursor first and yield the
column at the decremented cursor. -/
def Columns.next_back (s : Columns) : Option Rect × Columns :=
  if s.current_column_back ≤ s.current_column_fwd then
    (none, s)
  else
    (some (Rect.new (s.current_column_back - 1) s.rect.y 1 s.rect.height),
     ⟨s.rect, s.current_column_fwd, s.current_column_back - 1⟩)

/-- The `Positions` iterator state: the source `Rect` plus the current
position. -/
structure Positions where
  rect : Rect
  current_position : Position
deriving DecidableEq, Repr

/-- `Positions::new`: current position at `(rect.x, rect.y)`. -/
def Positions.new (rect : Rect) : Positions :=
  ⟨rect, Position.new rect.x rect.y⟩

/-- `Positions::next`: when `current_position.y >= rect.bottom()` yield
nothing; otherwise yield the current position, then advance `x` by a plain
`u16` increment and, when the advanced `x` reaches `rect.right()`, reset `x`
to `rect.x` and advance `y`. -/
def Positions.next (s : Positions) : Option Position × Positions :=
  if s.current_position.y ≥ s.rect.bottom then
    (none, s)
  else
    if (s.current_position.x + 1) % 65536 ≥ s.rect.right then
      (some s.current_position,
       ⟨s.rect, Position.new s.rect.x ((s.current_position.y + 1) % 65536)⟩)
    else
      (some s.current_position,
       ⟨s.rect, Position.new ((s.current_position.x + 1) % 65536) s.current_position.y⟩)

/-- `Positions::size_hint` lower bound, with all arithmetic saturating on
`u16`: `remaining_rows = height ⊕ y ⊖ current.y`; when it is zero the result
is `0`, otherwise `remaining_cells = width ⊕ x ⊖ current.x` plus
`(remaining_rows ⊖ 1) ⊗ width`, the final sum again saturating. -/
def Positions.size_hint (s : Positions) : Nat × Option Nat :=
  let remaining_rows := min (s.rect.height + s.rect.y) 65535 - s.current_position.y
  if remaining_rows = 0 then
    (0, none)
  else
    let remaining_cells := min (s.rect.width + s.rect.x) 65535 - s.current_position.x
    let remaining_rows_cell_count := min ((remaining_rows - 1) * s.rect.width) 65535
    (min (remaining_cells + remaining_rows_cell_count) 65535, none)

/-- A pull direction on a double-ended iterator: `F` is `next`, `B` is
`next_back`. -/
inductive Dir where
  | F : Dir
  | B : Dir
deriving DecidableEq, Repr

/-- One pull on a `Rows` iterator in the given direction. -/
def Rows.step (d : Dir) (s : Rows) : Option Rect × Rows :=
  match d with
  | Dir.F => s.next
  | Dir.B => s.next_back

/-- The `Rows` state after a sequence of pulls. -/
def Rows.run (ds : List Dir) (s : Rows) : Rows :=
  match ds with
  | [] => s
  | d :: rest => Rows.run rest (Rows.step d s).2

/-- The non-empty yields of a sequence of pulls on a `Rows` iterator, in
pull order. -/
def Rows.yields (ds : List Dir) (s : Rows) : List Rect :=
  match ds with
  | [] => []
  | d :: rest =>
    match (Rows.step d s).1 with
    | some r => r :: Rows.yields rest (Rows.step d s).2
    | none => Rows.yields rest (Rows.step d s).2

/-- One pull on a `Columns` iterator in the given direction. -/
def Columns.step (d : Dir) (s : Columns) : Option Rect × Columns :=
  match d with
  | Dir.F => s.next
  | Dir.B => s.next_back

/-- The `Columns` state after a sequence of pulls. -/
def Columns.run (ds : List Dir) (s : Columns) : Columns :=
  match ds with
  | [] => s
  | d :: rest => Columns.run rest (Columns.step d s).2

/-- The non-empty yields of a sequence of pulls on a `Columns` iterator, in
pull order. -/
def Columns.yields (ds : List Dir) (s : Columns) : List Rect :=
  match ds with
  | [] => []
  | d :: rest =>
    match (Columns.step d s).1 with
    | some r => r :: Columns.yields rest (Columns.step d s).2
    | none => Columns.yields rest (Columns.step d s).2

/-- The `Positions` state after `n` forward pulls. -/
def Positions.runN (n : Nat) (s : Positions) : Positions :=
  match n with
  | 0 => s
  | n + 1 => Positions.runN n (Positions.next s).2

/-- The non-empty yields of `n` forward pulls on a `Positions` iterator, in
pull order. -/
def Positions.yieldsN (n : Nat) (s : Positions) : List Position :=
  match n with
  | 0 => []
  | n + 1 =>
    match (Positions.next s).1 with
    | some p => p :: Positions.yieldsN n (Positions.next s).2
    | none => Positions.yieldsN n (Positions.next s).2

/-- The `Points` shape: a list of coordinate pairs (of an abstract continuous
coordinate type `α`) and a color (of an abstract color type `γ`). -/
structure Points (α γ : Type) where
  coords : List α
  color : γ

/-- Modelled from the spec: the `Painter` collaborator (not part of the
analysed sources) exposes a projection `get_point` from a continuous
coordinate to an optional discrete cell, and a `paint` mutation; the grid
mutations are recorded as the `painted` trace, in call order.  Painting does
not alter the projection. -/
structure Painter (α γ : Type) where
  get_point : α → Option (Nat × Nat)
  painted : List (Nat × Nat × γ)

/-- Modelled from the spec: `Painter::paint` mutates exactly one cell; in the
trace model it appends one paint record. -/
def Painter.paint {α γ : Type} (p : Painter α γ) (x y : Nat) (color : γ) : Painter α γ :=
  ⟨p.get_point, p.painted ++ [(x, y, color)]⟩

/-- The loop body of `Points::draw`: for each coordinate pair in order,
project it with `get_point`; on success paint the cell with the shape's
color, on failure do nothing and continue. -/
def Points.drawLoop {α γ : Type} (color : γ) (painter : Painter α γ) : List α → Painter α γ
  | [] => painter
  | c :: rest =>
    match painter.get_point c with
    | some q => Points.drawLoop color (painter.paint q.1 q.2 color) rest
    | none => Points.drawLoop color painter rest

/-- `Points::draw` (the `Shape` impl): iterate the coordinate pairs in input
order through the loop body. -/
def Points.draw {α γ : Type} (shape : Points α γ) (painter : Painter α γ) : Painter α γ :=
  Points.drawLoop shape.color painter shape.coords

/-- The yielded sub-region of a `Rows` iterator as a function of the cursor
value. -/
def rowAt (r : Rect) (j : Nat) : Rect :=
  Rect.new r.x j r.width 1

/-- The yielded sub-region of a `Columns` iterator as a function of the
cursor value. -/
def columnAt (r : Rect) (j : Nat) : Rect :=
  Rect.new j r.y 1 r.height

/-- The exact number of not-yet-yielded positions of a `Positions` state (the
reference count the saturating `size_hint` is compared against). -/
def Positions.remaining (s : Positions) : Nat :=
  if s.rect.bottom ≤ s.current_position.y then 0
  else (s.rect.right - s.current_position.x) +
    (s.rect.bottom - s.current_position.y - 1) * s.rect.width

/-- The `Positions` state invariant for a non-degenerate region: the current
position is inside the region, or it is `(rect.x, rect.bottom)` marking
exhaustion. -/
def Positions.inv (s : Positions) : Prop :=
  (s.rect.x ≤ s.current_position.x ∧ s.current_position.x < s.rect.right ∧
   s.rect.y ≤ s.current_position.y ∧ s.current_position.y < s.rect.bottom) ∨
  (s.current_position.x = s.rect.x ∧ s.current_position.y = s.rect.bottom)

/-- Proof-layer abstraction of the dual-cursor core shared (transposed) by
`Rows` and `Columns`: a pair `(forward, backward)` of cursors, stepped
exactly as the source steps its cursors. -/
def spanStep (d : Dir) (p : Nat × Nat) : Option Nat × (Nat × Nat) :=
  match d with
  | Dir.F =>
    if p.1 ≥ p.2 then (none, p) else (some p.1, ((p.1 + 1) % 65536, p.2))
  | Dir.B =>
    if p.2 ≤ p.1 then (none, p) else (some (p.2 - 1), (p.1, p.2 - 1))

/-- The cursor pair after a sequence of pulls. -/
def spanRun (ds : List Dir) (p : Nat × Nat) : Nat × Nat :=
  match ds with
  | [] => p
  | d :: rest => spanRun rest (spanStep d p).2

/-- The yielded cursor values of a sequence of pulls, in pull order. -/
def spanYields (ds : List Dir) (p : Nat × Nat) : List Nat :=
  match ds with
  | [] => []
  | d :: rest =>
    match (spanStep d p).1 with
    | some j => j :: spanYields rest (spanStep d p).2
    | none => spanYields rest (spanStep d p).2

/-- The cursor-pair invariant: forward at most backward, backward within
`u16`. -/
def spanInv (p : Nat × Nat) : Prop :=
  p.1 ≤ p.2 ∧ p.2 ≤ 65535

theorem spanStep_F_none (p : Nat × Nat) (h : p.2 ≤ p.1) :
    spanStep Dir.F p = (none, p) := by
  simp [spanStep, h]

theorem spanStep_F_some (p : Nat × Nat) (h1 : p.1 < p.2) (h2 : p.2 ≤ 65535) :
    spanStep Dir.F p = (some p.1, (p.1 + 1, p.2)) := by
  have hm : (p.1 + 1) % 65536 = p.1 + 1 := Nat.mod_eq_of_lt (by omega)
  simp [spanStep, hm, Nat.not_le.mpr h1]

theorem spanStep_B_none (p : Nat × Nat) (h : p.2 ≤ p.1) :
    spanStep Dir.B p = (none, p) := by
  simp [spanStep, h]

theorem spanStep_B_some (p : Nat × Nat) (h1 : p.1 < p.2) :
    spanStep Dir.B p = (some (p.2 - 1), (p.1, p.2 - 1)) := by
  simp [spanStep, Nat.not_le.mpr h1]

/-- Core facts about a run on the cursor pair: the invariant is preserved,
cursors move monotonically inward, the interval shrinks by one per pull (down
to empty), the number of yields is `min` of the pull count and the initial
interval size, the yielded values are exactly the two consumed end segments,
and no value is yielded twice. -/
theorem spanRun_spec (ds : List Dir) (p : Nat × Nat) (h : spanInv p) :
    spanInv (spanRun ds p) ∧
    p.1 ≤ (spanRun ds p).1 ∧ (spanRun ds p).2 ≤ p.2 ∧
    (spanRun ds p).2 - (spanRun ds p).1 = (p.2 - p.1) - ds.length ∧
    (spanYields ds p).length = min ds.length (p.2 - p.1) ∧
    (∀ j, j ∈ spanYields ds p ↔
      (p.1 ≤ j ∧ j < (spanRun ds p).1) ∨ ((spanRun ds p).2 ≤ j ∧ j < p.2)) ∧
    (spanYields ds p).Nodup := by
  induction ds generalizing p with
  | nil =>
    refine ⟨h, Nat.le_refl _, Nat.le_refl _, by simp [spanRun], by simp [spanYields], ?_, by
      simp [spanYields]⟩
    intro j
    show j ∈ ([] : List Nat) ↔ _
    simp only [List.not_mem_nil, false_iff, spanRun]
    omega
  | cons d rest ih =>
    rcases Nat.lt_or_ge p.1 p.2 with hlt | hge
    · cases d with
      | F =>
        have hstep := spanStep_F_some p hlt h.2
        have hinv : spanInv (p.1 + 1, p.2) := ⟨by omega, h.2⟩
        obtain ⟨ih_inv, ih_lo, ih_hi, ih_size, ih_len, ih_mem, ih_nd⟩ := ih (p.1 + 1, p.2) hinv
        have ih_inv2 : (spanRun rest (p.1 + 1, p.2)).1 ≤ (spanRun rest (p.1 + 1, p.2)).2 ∧
            (spanRun rest (p.1 + 1, p.2)).2 ≤ 65535 := ih_inv
        have ih_lo2 : p.1 + 1 ≤ (spanRun rest (p.1 + 1, p.2)).1 := ih_lo
        have ih_hi2 : (spanRun rest (p.1 + 1, p.2)).2 ≤ p.2 := ih_hi
        have ih_size2 : (spanRun rest (p.1 + 1, p.2)).2 - (spanRun rest (p.1 + 1, p.2)).1 =
            (p.2 - (p.1 + 1)) - rest.length := ih_size
        have ih_len2 : (spanYields rest (p.1 + 1, p.2)).length =
            min rest.length (p.2 - (p.1 + 1)) := ih_len
        have ih_mem2 : ∀ j, j ∈ spanYields rest (p.1 + 1, p.2) ↔
            (p.1 + 1 ≤ j ∧ j < (spanRun rest (p.1 + 1, p.2)).1) ∨
            ((spanRun rest (p.1 + 1, p.2)).2 ≤ j ∧ j < p.2) := ih_mem
        have hrun : spanRun (Dir.F :: rest) p = spanRun rest (p.1 + 1, p.2) := by
          show spanRun rest (spanStep Dir.F p).2 = _
          rw [hstep]
        have hyl : spanYields (Dir.F :: rest) p = p.1 :: spanYields rest (p.1 + 1, p.2) := by
          show (match (spanStep Dir.F p).1 with
            | some j => j :: spanYields rest (spanStep Dir.F p).2
            | none => spanYields rest (spanStep Dir.F p).2) = _
          rw [hstep]
        rw [hrun, hyl]
        refine ⟨ih_inv, by omega, by omega, by simp only [List.length_cons]; omega,
          by simp only [List.length_cons, ih_len2]; omega, ?_, ?_⟩
        · intro j
          rw [List.mem_cons, ih_mem2 j]
          constructor
          · rintro (rfl | ⟨h3, h4⟩ | ⟨h3, h4⟩) <;> [skip; skip; skip] <;> omega
          · rintro (⟨h3, h4⟩ | ⟨h3, h4⟩)
            · rcases Nat.eq_or_lt_of_le h3 with h5 | h5
              · exact Or.inl h5.symm
              · exact Or.inr (Or.inl ⟨by omega, h4⟩)
            · exact Or.inr (Or.inr ⟨h3, h4⟩)
        · refine List.Nodup.cons ?_ ih_nd
          intro hmem
          have := (ih_mem2 p.1).mp hmem
          omega
      | B =>
        have hstep := spanStep_B_some p hlt
        have h2 := h.2
        have hinv : spanInv (p.1, p.2 - 1) := ⟨by omega, by omega⟩
        obtain ⟨ih_inv, ih_lo, ih_hi, ih_size, ih_len, ih_mem, ih_nd⟩ := ih (p.1, p.2 - 1) hinv
        have ih_inv2 : (spanRun rest (p.1, p.2 - 1)).1 ≤ (spanRun rest (p.1, p.2 - 1)).2 ∧
            (spanRun rest (p.1, p.2 - 1)).2 ≤ 65535 := ih_inv
        have ih_lo2 : p.1 ≤ (spanRun rest (p.1, p.2 - 1)).1 := ih_lo
        have ih_hi2 : (spanRun rest (p.1, p.2 - 1)).2 ≤ p.2 - 1 := ih_hi
        have ih_size2 : (spanRun rest (p.1, p.2 - 1)).2 - (spanRun rest (p.1, p.2 - 1)).1 =
            ((p.2 - 1) - p.1) - rest.length := ih_size
        have ih_len2 : (spanYields rest (p.1, p.2 - 1)).length =
            min rest.length ((p.2 - 1) - p.1) := ih_len
        have ih_mem2 : ∀ j, j ∈ spanYields rest (p.1, p.2 - 1) ↔
            (p.1 ≤ j ∧ j < (spanRun rest (p.1, p.2 - 1)).1) ∨
            ((spanRun rest (p.1, p.2 - 1)).2 ≤ j ∧ j < p.2 - 1) := ih_mem
        have hrun : spanRun (Dir.B :: rest) p = spanRun rest (p.1, p.2 - 1) := by
          show spanRun rest (spanStep Dir.B p).2 = _
          rw [hstep]
        have hyl : spanYields (Dir.B :: rest) p = (p.2 - 1) :: spanYields rest (p.1, p.2 - 1) := by
          show (match (spanStep Dir.B p).1 with
            | some j => j :: spanYields rest (spanStep Dir.B p).2
            | none => spanYields rest (spanStep Dir.B p).2) = _
          rw [hstep]
        rw [hrun, hyl]
        refine ⟨ih_inv, by omega, by omega, by simp only [List.length_cons]; omega,
          by simp only [List.length_cons, ih_len2]; omega, ?_, ?_⟩
        · intro j
          rw [List.mem_cons, ih_mem2 j]
          constructor
          · rintro (rfl | ⟨h3, h4⟩ | ⟨h3, h4⟩) <;> [skip; skip; skip] <;> omega
          · rintro (⟨h3, h4⟩ | ⟨h3, h4⟩)
            · exact Or.inr (Or.inl ⟨h3, h4⟩)
            · rcases Nat.lt_or_ge j (p.2 - 1) with h5 | h5
              · exact Or.inr (Or.inr ⟨h3, h5⟩)
              · exact Or.inl (by omega)
        · refine List.Nodup.cons ?_ ih_nd
          intro hmem
          have := (ih_mem2 (p.2 - 1)).mp hmem
          omega
    · have hstep : (spanStep d p).2 = p ∧ (spanStep d p).1 = none := by
        cases d with
        | F => rw [spanStep_F_none p hge]; exact ⟨rfl, rfl⟩
        | B => rw [spanStep_B_none p hge]; exact ⟨rfl, rfl⟩
      obtain ⟨ih_inv, ih_lo, ih_hi, ih_size, ih_len, ih_mem, ih_nd⟩ := ih p h
      have hrun : spanRun (d :: rest) p = spanRun rest p := by
        show spanRun rest (spanStep d p).2 = _
        rw [hstep.1]
      have hyl : spanYields (d :: rest) p = spanYields rest p := by
        show (match (spanStep d p).1 with
          | some j => j :: spanYields rest (spanStep d p).2
          | none => spanYields rest (spanStep d p).2) = _
        rw [hstep.1, hstep.2]
      rw [hrun, hyl]
      refine ⟨ih_inv, ih_lo, ih_hi, ?_, ?_, ih_mem, ih_nd⟩
      · simp only [List.length_cons]; omega
      · rw [ih_len]; omega

/-- A forward-only run moves the forward cursor by the pull count, clamped at
the backward cursor, and leaves the backward cursor unchanged. -/
theorem spanRun_replicate_F (k : Nat) (p : Nat × Nat) (h : spanInv p) :
    spanRun (List.replicate k Dir.F) p = (min (p.1 + k) p.2, p.2) := by
  induction k generalizing p with
  | zero =>
    have h1 := h.1
    have hm : min (p.1 + 0) p.2 = p.1 := by omega
    show p = (min (p.1 + 0) p.2, p.2)
    rw [hm]
  | succ n ih =>
    rw [List.replicate_succ]
    rcases Nat.lt_or_ge p.1 p.2 with hlt | hge
    · have hstep := spanStep_F_some p hlt h.2
      have hr : spanRun (Dir.F :: List.replicate n Dir.F) p
          = spanRun (List.replicate n Dir.F) (p.1 + 1, p.2) := by
        show spanRun (List.replicate n Dir.F) (spanStep Dir.F p).2 = _
        rw [hstep]
      rw [hr, ih (p.1 + 1, p.2) ⟨by omega, h.2⟩]
      have hm : min (p.1 + 1 + n) p.2 = min (p.1 + (n + 1)) p.2 := by omega
      rw [hm]
    · have hstep := spanStep_F_none p hge
      have hr : spanRun (Dir.F :: List.replicate n Dir.F) p
          = spanRun (List.replicate n Dir.F) p := by
        show spanRun (List.replicate n Dir.F) (spanStep Dir.F p).2 = _
        rw [hstep]
      rw [hr, ih p h]
      have hm : min (p.1 + n) p.2 = min (p.1 + (n + 1)) p.2 := by omega
      rw [hm]

theorem rows_step_span (d : Dir) (s : Rows) :
    Rows.step d s =
      ((spanStep d (s.current_row_fwd, s.current_row_back)).1.map (rowAt s.rect),
       ⟨s.rect, (spanStep d (s.current_row_fwd, s.current_row_back)).2.1,
        (spanStep d (s.current_row_fwd, s.current_row_back)).2.2⟩) := by
  cases d with
  | F =>
    show s.next = _
    by_cases hc : s.current_row_fwd ≥ s.current_row_back
    · simp [Rows.next, spanStep, hc, rowAt]
    · simp [Rows.next, spanStep, hc, rowAt]
  | B =>
    show s.next_back = _
    by_cases hc : s.current_row_back ≤ s.current_row_fwd
    · simp [Rows.next_back, spanStep, hc, rowAt]
    · simp [Rows.next_back, spanStep, hc, rowAt]

theorem rows_run_span (ds : List Dir) (s : Rows) :
    Rows.run ds s =
      ⟨s.rect, (spanRun ds (s.current_row_fwd, s.current_row_back)).1,
       (spanRun ds (s.current_row_fwd, s.current_row_back)).2⟩ := by
  induction ds generalizing s with
  | nil => rfl
  | cons d rest ih =>
    show Rows.run rest (Rows.step d s).2 = _
    rw [rows_step_span]
    rw [ih]
    rfl

theorem rows_yields_span (ds : List Dir) (s : Rows) :
    Rows.yields ds s =
      (spanYields ds (s.current_row_fwd, s.current_row_back)).map (rowAt s.rect) := by
  induction ds generalizing s with
  | nil => rfl
  | cons d rest ih =>
    show (match (Rows.step d s).1 with
      | some r => r :: Rows.yields rest (Rows.step d s).2
      | none => Rows.yields rest (Rows.step d s).2) = _
    rw [rows_step_span]
    cases hj : (spanStep d (s.current_row_fwd, s.current_row_back)).1 with
    | none =>
      simp only [Option.map_none]
      rw [ih]
      show (spanYields rest (spanStep d (s.current_row_fwd, s.current_row_back)).2).map
        (rowAt s.rect) = _
      show _ = (match (spanStep d (s.current_row_fwd, s.current_row_back)).1 with
        | some j => j :: spanYields rest (spanStep d (s.current_row_fwd, s.current_row_back)).2
        | none => spanYields rest (spanStep d (s.current_row_fwd, s.current_row_back)).2).map
          (rowAt s.rect)
      rw [hj]
    | some j =>
      simp only [Option.map_some]
      rw [ih]
      show rowAt s.rect j :: (spanYields rest
          (spanStep d (s.current_row_fwd, s.current_row_back)).2).map (rowAt s.rect) = _
      show _ = (match (spanStep d (s.current_row_fwd, s.current_row_back)).1 with
        | some j => j :: spanYields rest (spanStep d (s.current_row_fwd, s.current_row_back)).2
        | none => spanYields rest (spanStep d (s.current_row_fwd, s.current_row_back)).2).map
          (rowAt s.rect)
      rw [hj]
      rfl

theorem columns_step_span (d : Dir) (s : Columns) :
    Columns.step d s =
      ((spanStep d (s.current_column_fwd, s.current_column_back)).1.map (columnAt s.rect),
       ⟨s.rect, (spanStep d (s.current_column_fwd, s.current_column_back)).2.1,
        (spanStep d (s.current_column_fwd, s.current_column_back)).2.2⟩) := by
  cases d with
  | F =>
    show s.next = _
    by_cases hc : s.current_column_fwd ≥ s.current_column_back
    · simp [Columns.next, spanStep, hc, columnAt]
    · simp [Columns.next, spanStep, hc, columnAt]
  | B =>
    show s.next_back = _
    by_cases hc : s.current_column_back ≤ s.current_column_fwd
    · simp [Columns.next_back, spanStep, hc, columnAt]
    · simp [Columns.next_back, spanStep, hc, columnAt]

theorem columns_run_span (ds : List Dir) (s : Columns) :
    Columns.run ds s =
      ⟨s.rect, (spanRun ds (s.current_column_fwd, s.current_column_back)).1,
       (spanRun ds (s.current_column_fwd, s.current_column_back)).2⟩ := by
  induction ds generalizing s with
  | nil => rfl
  | cons d rest ih =>
    show Columns.run rest (Columns.step d s).2 = _
    rw [columns_step_span]
    rw [ih]
    rfl

theorem columns_yields_span (ds : List Dir) (s : Columns) :
    Columns.yields ds s =
      (spanYields ds (s.current_column_fwd, s.current_column_back)).map (columnAt s.rect) := by
  induction ds generalizing s with
  | nil => rfl
  | cons d rest ih =>
    show (match (Columns.step d s).1 with
      | some r => r :: Columns.yields rest (Columns.step d s).2
      | none => Columns.yields rest (Columns.step d s).2) = _
    rw [columns_step_span]
    cases hj : (spanStep d (s.current_column_fwd, s.current_column_back)).1 with
    | none =>
      simp only [Option.map_none]
      rw [ih]
      show (spanYields rest (spanStep d (s.current_column_fwd, s.current_column_back)).2).map
        (columnAt s.rect) = _
      show _ = (match (spanStep d (s.current_column_fwd, s.current_column_back)).1 with
        | some j => j :: spanYields rest (spanStep d (s.current_column_fwd, s.current_column_back)).2
        | none => spanYields rest (spanStep d (s.current_column_fwd, s.current_column_back)).2).map
          (columnAt s.rect)
      rw [hj]
    | some j =>
      simp only [Option.map_some]
      rw [ih]
      show columnAt s.rect j :: (spanYields rest
          (spanStep d (s.current_column_fwd, s.current_column_back)).2).map (columnAt s.rect) = _
      show _ = (match (spanStep d (s.current_column_fwd, s.current_column_back)).1 with
        | some j => j :: spanYields rest (spanStep d (s.current_column_fwd, s.current_column_back)).2
        | none => spanYields rest (spanStep d (s.current_column_fwd, s.current_column_back)).2).map
          (columnAt s.rect)
      rw [hj]
      rfl

theorem Rect.bottom_def (r : Rect) : r.bottom = min (r.y + r.height) 65535 :=
  rfl

theorem Rect.right_def (r : Rect) : r.right = min (r.x + r.width) 65535 :=
  rfl

theorem map_y_rowAt (r : Rect) (l : List Nat) : (l.map (rowAt r)).map Rect.y = l := by
  induction l with
  | nil => rfl
  | cons a rest ih => simp only [List.map_cons, ih]; rfl

theorem map_x_columnAt (r : Rect) (l : List Nat) : (l.map (columnAt r)).map Rect.x = l := by
  induction l with
  | nil => rfl
  | cons a rest ih => simp only [List.map_cons, ih]; rfl

theorem rowAt_mem_map (r : Rect) (l : List Nat) (j : Nat) :
    rowAt r j ∈ l.map (rowAt r) ↔ j ∈ l := by
  constructor
  · intro hm
    obtain ⟨a, ha, heq⟩ := List.mem_map.mp hm
    have haj : a = j := congrArg Rect.y heq
    rwa [haj] at ha
  · intro hj
    exact List.mem_map_of_mem _ hj

theorem columnAt_mem_map (r : Rect) (l : List Nat) (j : Nat) :
    columnAt r j ∈ l.map (columnAt r) ↔ j ∈ l := by
  constructor
  · intro hm
    obtain ⟨a, ha, heq⟩ := List.mem_map.mp hm
    have haj : a = j := congrArg Rect.x heq
    rwa [haj] at ha
  · intro hj
    exact List.mem_map_of_mem _ hj

theorem rows_next_none_iff (s : Rows) :
    (Rows.next s).1 = none ↔ s.current_row_back ≤ s.current_row_fwd := by
  unfold Rows.next
  split <;> rename_i hc <;> simp <;> omega

theorem rows_next_back_none_iff (s : Rows) :
    (Rows.next_back s).1 = none ↔ s.current_row_back ≤ s.current_row_fwd := by
  unfold Rows.next_back
  split <;> rename_i hc <;> simp <;> omega

theorem columns_next_none_iff (s : Columns) :
    (Columns.next s).1 = none ↔ s.current_column_back ≤ s.current_column_fwd := by
  unfold Columns.next
  split <;> rename_i hc <;> simp <;> omega

theorem columns_next_back_none_iff (s : Columns) :
    (Columns.next_back s).1 = none ↔ s.current_column_back ≤ s.current_column_fwd := by
  unfold Columns.next_back
  split <;> rename_i hc <;> simp <;> omega

example : (Rows.new (Rect.new 0 0 2 3)).next =
    (some (Rect.new 0 0 2 1), ⟨Rect.new 0 0 2 3, 1, 3⟩) := by decide

example : (Rows.yields [Dir.F, Dir.B, Dir.F, Dir.F] (Rows.new (Rect.new 0 0 2 3))).length = 3 := by
  decide

example : Positions.yieldsN 5 (Positions.new (Rect.new 0 0 2 2)) =
    [Position.new 0 0, Position.new 1 0, Position.new 0 1, Position.new 1 1] := by decide

example : Positions.yieldsN 3 (Positions.new (Rect.new 0 0 0 2)) =
    [Position.new 0 0, Position.new 0 1] := by decide

/-- C4: on every `u16`-valued `Rows` state, `next` yields nothing when the
forward cursor has reached the backward cursor and otherwise yields the
unit-height row at the forward cursor and increments it by one (without
wrapping); `next_back` yields nothing when the backward cursor has reached
the forward cursor and otherwise decrements the backward cursor first and
yields the unit-height row at the decremented cursor. -/
theorem rows_step_spec (s : Rows) (hf : s.current_row_fwd ≤ 65535)
    (hb : s.current_row_back ≤ 65535) :
    (s.current_row_fwd ≥ s.current_row_back → s.next = (none, s)) ∧
    (s.current_row_fwd < s.current_row_back →
      s.next = (some (Rect.new s.rect.x s.current_row_fwd s.rect.width 1),
                ⟨s.rect, s.current_row_fwd + 1, s.current_row_back⟩)) ∧
    (s.current_row_back ≤ s.current_row_fwd → s.next_back = (none, s)) ∧
    (s.current_row_fwd < s.current_row_back →
      s.next_back = (some (Rect.new s.rect.x (s.current_row_back - 1) s.rect.width 1),
                     ⟨s.rect, s.current_row_fwd, s.current_row_back - 1⟩)) := by
  refine ⟨?_, ?_, ?_, ?_⟩
  · intro hc
    simp [Rows.next, hc]
  · intro hc
    have hm : (s.current_row_fwd + 1) % 65536 = s.current_row_fwd + 1 :=
      Nat.mod_eq_of_lt (by omega)
    simp [Rows.next, Nat.not_le.mpr hc, hm]
  · intro hc
    simp [Rows.next_back, hc]
  · intro hc
    simp [Rows.next_back, Nat.not_le.mpr hc]

theorem rows_step_spec_witness :
    (Rows.mk (Rect.new 0 0 2 3) 0 3).current_row_fwd ≤ 65535 ∧
    (Rows.mk (Rect.new 0 0 2 3) 0 3).current_row_back ≤ 65535 ∧
    ((Rows.mk (Rect.new 0 0 2 3) 0 3).current_row_fwd <
        (Rows.mk (Rect.new 0 0 2 3) 0 3).current_row_back →
      (Rows.mk (Rect.new 0 0 2 3) 0 3).next =
        (some (Rect.new 0 0 2 1), Rows.mk (Rect.new 0 0 2 3) 1 3)) ∧
    ((Rows.mk (Rect.new 0 0 2 3) 0 3).current_row_fwd <
        (Rows.mk (Rect.new 0 0 2 3) 0 3).current_row_back →
      (Rows.mk (Rect.new 0 0 2 3) 0 3).next_back =
        (some (Rect.new 0 2 2 1), Rows.mk (Rect.new 0 0 2 3) 0 2)) :=
  ⟨by decide, by decide,
   (rows_step_spec (Rows.mk (Rect.new 0 0 2 3) 0 3) (by decide) (by decide)).2.1,
   (rows_step_spec (Rows.mk (Rect.new 0 0 2 3) 0 3) (by decide) (by decide)).2.2.2⟩

/-- C6: from `new(region)` and after any sequence of pulls, the forward
cursor is at most the backward cursor, both stay within the region's start
and end coordinate on the iterated axis, the half-open cursor interval is
exactly the set of not-yet-yielded rows (columns), and both ends are
exhausted exactly when the cursors are equal; stated for `Rows` and for
`Columns`. -/
theorem rows_columns_cursor_invariant (r : Rect) (hr : r.isU16) (ds : List Dir) :
    (r.y ≤ (Rows.run ds (Rows.new r)).current_row_fwd ∧
     (Rows.run ds (Rows.new r)).current_row_fwd ≤
       (Rows.run ds (Rows.new r)).current_row_back ∧
     (Rows.run ds (Rows.new r)).current_row_back ≤ r.bottom ∧
     (∀ j, ((Rows.run ds (Rows.new r)).current_row_fwd ≤ j ∧
            j < (Rows.run ds (Rows.new r)).current_row_back) ↔
       (r.y ≤ j ∧ j < r.bottom ∧ rowAt r j ∉ Rows.yields ds (Rows.new r))) ∧
     ((((Rows.run ds (Rows.new r)).next).1 = none ∧
       ((Rows.run ds (Rows.new r)).next_back).1 = none) ↔
      (Rows.run ds (Rows.new r)).current_row_fwd =
        (Rows.run ds (Rows.new r)).current_row_back)) ∧
    (r.x ≤ (Columns.run ds (Columns.new r)).current_column_fwd ∧
     (Columns.run ds (Columns.new r)).current_column_fwd ≤
       (Columns.run ds (Columns.new r)).current_column_back ∧
     (Columns.run ds (Columns.new r)).current_column_back ≤ r.right ∧
     (∀ j, ((Columns.run ds (Columns.new r)).current_column_fwd ≤ j ∧
            j < (Columns.run ds (Columns.new r)).current_column_back) ↔
       (r.x ≤ j ∧ j < r.right ∧ columnAt r j ∉ Columns.yields ds (Columns.new r))) ∧
     ((((Columns.run ds (Columns.new r)).next).1 = none ∧
       ((Columns.run ds (Columns.new r)).next_back).1 = none) ↔
      (Columns.run ds (Columns.new r)).current_column_fwd =
        (Columns.run ds (Columns.new r)).current_column_back)) := by
  obtain ⟨hx, hy, hw, hh⟩ := hr
  have hbd := Rect.bottom_def r
  have hrd := Rect.right_def r
  constructor
  · have hinv : spanInv (r.y, r.bottom) := ⟨by omega, by omega⟩
    obtain ⟨sinv, slo, shi, ssize, slen, smem, snd⟩ := spanRun_spec ds (r.y, r.bottom) hinv
    have sinv2 : (spanRun ds (r.y, r.bottom)).1 ≤ (spanRun ds (r.y, r.bottom)).2 ∧
        (spanRun ds (r.y, r.bottom)).2 ≤ 65535 := sinv
    have slo2 : r.y ≤ (spanRun ds (r.y, r.bottom)).1 := slo
    have shi2 : (spanRun ds (r.y, r.bottom)).2 ≤ r.bottom := shi
    have smem2 : ∀ j, j ∈ spanYields ds (r.y, r.bottom) ↔
        (r.y ≤ j ∧ j < (spanRun ds (r.y, r.bottom)).1) ∨
        ((spanRun ds (r.y, r.bottom)).2 ≤ j ∧ j < r.bottom) := smem
    have hrun : Rows.run ds (Rows.new r) =
        ⟨r, (spanRun ds (r.y, r.bottom)).1, (spanRun ds (r.y, r.bottom)).2⟩ :=
      rows_run_span ds (Rows.new r)
    have hyl : Rows.yields ds (Rows.new r) =
        (spanYields ds (r.y, r.bottom)).map (rowAt r) :=
      rows_yields_span ds (Rows.new r)
    have hfwd : (Rows.run ds (Rows.new r)).current_row_fwd =
        (spanRun ds (r.y, r.bottom)).1 := by
      rw [hrun]
    have hback : (Rows.run ds (Rows.new r)).current_row_back =
        (spanRun ds (r.y, r.bottom)).2 := by
      rw [hrun]
    refine ⟨?_, ?_, ?_, ?_, ?_⟩
    · rw [hfwd]; exact slo2
    · rw [hfwd, hback]; exact sinv2.1
    · rw [hback]; exact shi2
    · intro j
      rw [hfwd, hback, hyl, rowAt_mem_map, smem2 j]
      omega
    · rw [rows_next_none_iff, rows_next_back_none_iff, hfwd, hback]
      omega
  · have hinv : spanInv (r.x, r.right) := ⟨by omega, by omega⟩
    obtain ⟨sinv, slo, shi, ssize, slen, smem, snd⟩ := spanRun_spec ds (r.x, r.right) hinv
    have sinv2 : (spanRun ds (r.x, r.right)).1 ≤ (spanRun ds (r.x, r.right)).2 ∧
        (spanRun ds (r.x, r.right)).2 ≤ 65535 := sinv
    have slo2 : r.x ≤ (spanRun ds (r.x, r.right)).1 := slo
    have shi2 : (spanRun ds (r.x, r.right)).2 ≤ r.right := shi
    have smem2 : ∀ j, j ∈ spanYields ds (r.x, r.right) ↔
        (r.x ≤ j ∧ j < (spanRun ds (r.x, r.right)).1) ∨
        ((spanRun ds (r.x, r.right)).2 ≤ j ∧ j < r.right) := smem
    have hrun : Columns.run ds (Columns.new r) =
        ⟨r, (spanRun ds (r.x, r.right)).1, (spanRun ds (r.x, r.right)).2⟩ :=
      columns_run_span ds (Columns.new r)
    have hyl : Columns.yields ds (Columns.new r) =
        (spanYields ds (r.x, r.right)).map (columnAt r) :=
      columns_yields_span ds (Columns.new r)
    have hfwd : (Columns.run ds (Columns.new r)).current_column_fwd =
        (spanRun ds (r.x, r.right)).1 := by
      rw [hrun]
    have hback : (Columns.run ds (Columns.new r)).current_column_back =
        (spanRun ds (r.x, r.right)).2 := by
      rw [hrun]
    refine ⟨?_, ?_, ?_, ?_, ?_⟩
    · rw [hfwd]; exact slo2
    · rw [hfwd, hback]; exact sinv2.1
    · rw [hback]; exact shi2
    · intro j
      rw [hfwd, hback, hyl, columnAt_mem_map, smem2 j]
      omega
    · rw [columns_next_none_iff, columns_next_back_none_iff, hfwd, hback]
      omega

theorem rows_columns_cursor_invariant_witness :
    (Rect.new 0 0 2 3).isU16 ∧
    ((Rows.run [Dir.F, Dir.B] (Rows.new (Rect.new 0 0 2 3))).current_row_fwd ≤
      (Rows.run [Dir.F, Dir.B] (Rows.new (Rect.new 0 0 2 3))).current_row_back) :=
  ⟨by decide, ((rows_columns_cursor_invariant (Rect.new 0 0 2 3) (by decide)
    [Dir.F, Dir.B]).1).2.1⟩

theorem Positions.next_rect (s : Positions) : (Positions.next s).2.rect = s.rect := by
  unfold Positions.next
  split
  · rfl
  · split <;> rfl

theorem Positions.runN_rect (n : Nat) (s : Positions) :
    (Positions.runN n s).rect = s.rect := by
  induction n generalizing s with
  | zero => rfl
  | succ m ih =>
    show (Positions.runN m (Positions.next s).2).rect = s.rect
    rw [ih, Positions.next_rect]

/-- C10: on every `Rows` or `Columns` state reachable from `new(region)` with
a `u16`-valued region, both cursors stay within `u16`, and the plain
increment of the forward cursor in `next` and the plain decrement of the
backward cursor in `next_back` never wrap: whenever the guard
`forward < backward` admits a yield, `forward + 1` still fits in `u16` (so
the `% 65536` of the embedding is the identity) and `backward ≥ 1`. -/
theorem rows_columns_no_wrap (r : Rect) (hr : r.isU16) (ds : List Dir) :
    ((Rows.run ds (Rows.new r)).current_row_fwd ≤ 65535 ∧
     (Rows.run ds (Rows.new r)).current_row_back ≤ 65535 ∧
     ((Rows.run ds (Rows.new r)).current_row_fwd <
        (Rows.run ds (Rows.new r)).current_row_back →
       (Rows.run ds (Rows.new r)).current_row_fwd + 1 ≤ 65535 ∧
       ((Rows.run ds (Rows.new r)).current_row_fwd + 1) % 65536 =
         (Rows.run ds (Rows.new r)).current_row_fwd + 1 ∧
       1 ≤ (Rows.run ds (Rows.new r)).current_row_back)) ∧
    ((Columns.run ds (Columns.new r)).current_column_fwd ≤ 65535 ∧
     (Columns.run ds (Columns.new r)).current_column_back ≤ 65535 ∧
     ((Columns.run ds (Columns.new r)).current_column_fwd <
        (Columns.run ds (Columns.new r)).current_column_back →
       (Columns.run ds (Columns.new r)).current_column_fwd + 1 ≤ 65535 ∧
       ((Columns.run ds (Columns.new r)).current_column_fwd + 1) % 65536 =
         (Columns.run ds (Columns.new r)).current_column_fwd + 1 ∧
       1 ≤ (Columns.run ds (Columns.new r)).current_column_back)) := by
  obtain ⟨hx, hy, hw, hh⟩ := hr
  have hbd := Rect.bottom_def r
  have hrd := Rect.right_def r
  constructor
  · have hinv : spanInv (r.y, r.bottom) := ⟨by omega, by omega⟩
    obtain ⟨sinv, slo, shi, ssize, slen, smem, snd⟩ := spanRun_spec ds (r.y, r.bottom) hinv
    have sinv2 : (spanRun ds (r.y, r.bottom)).1 ≤ (spanRun ds (r.y, r.bottom)).2 ∧
        (spanRun ds (r.y, r.bottom)).2 ≤ 65535 := sinv
    have hfwd : (Rows.run ds (Rows.new r)).current_row_fwd =
        (spanRun ds (r.y, r.bottom)).1 := by
      rw [rows_run_span ds (Rows.new r)]
      rfl
    have hback : (Rows.run ds (Rows.new r)).current_row_back =
        (spanRun ds (r.y, r.bottom)).2 := by
      rw [rows_run_span ds (Rows.new r)]
      rfl
    rw [hfwd, hback]
    omega
  · have hinv : spanInv (r.x, r.right) := ⟨by omega, by omega⟩
    obtain ⟨sinv, slo, shi, ssize, slen, smem, snd⟩ := spanRun_spec ds (r.x, r.right) hinv
    have sinv2 : (spanRun ds (r.x, r.right)).1 ≤ (spanRun ds (r.x, r.right)).2 ∧
        (spanRun ds (r.x, r.right)).2 ≤ 65535 := sinv
    have hfwd : (Columns.run ds (Columns.new r)).current_column_fwd =
        (spanRun ds (r.x, r.right)).1 := by
      rw [columns_run_span ds (Columns.new r)]
      rfl
    have hback : (Columns.run ds (Columns.new r)).current_column_back =
        (spanRun ds (r.x, r.right)).2 := by
      rw [columns_run_span ds (Columns.new r)]
      rfl
    rw [hfwd, hback]
    omega

theorem rows_columns_no_wrap_witness :
    (Rect.new 0 0 2 3).isU16 ∧
    (Rows.run [Dir.F] (Rows.new (Rect.new 0 0 2 3))).current_row_fwd ≤ 65535 :=
  ⟨by decide, ((rows_columns_no_wrap (Rect.new 0 0 2 3) (by decide) [Dir.F]).1).1⟩

/-- C1 (amended): over any interleaving of forward and backward pulls, no row
(column) is ever yielded twice, from either end; and when the region's bottom
(right) edge does not saturate, i.e. `y + height ≤ 65535`
(`x + width ≤ 65535`), an interleaving of at least `height` (`width`) pulls
produces exactly `height` (`width`) non-empty yields. -/
theorem rows_columns_meet_in_the_middle (r : Rect) (hr : r.isU16) (ds : List Dir) :
    ((Rows.yields ds (Rows.new r)).map Rect.y).Nodup ∧
    (r.y + r.height ≤ 65535 → r.height ≤ ds.length →
      (Rows.yields ds (Rows.new r)).length = r.height) ∧
    ((Columns.yields ds (Columns.new r)).map Rect.x).Nodup ∧
    (r.x + r.width ≤ 65535 → r.width ≤ ds.length →
      (Columns.yields ds (Columns.new r)).length = r.width) := by
  obtain ⟨hx, hy, hw, hh⟩ := hr
  have hbd := Rect.bottom_def r
  have hrd := Rect.right_def r
  have hinvr : spanInv (r.y, r.bottom) := ⟨by omega, by omega⟩
  have hinvc : spanInv (r.x, r.right) := ⟨by omega, by omega⟩
  obtain ⟨rinv, rlo, rhi, rsize, rlen, rmem, rnd⟩ := spanRun_spec ds (r.y, r.bottom) hinvr
  obtain ⟨cinv, clo, chi, csize, clen, cmem, cnd⟩ := spanRun_spec ds (r.x, r.right) hinvc
  have rlen2 : (spanYields ds (r.y, r.bottom)).length = min ds.length (r.bottom - r.y) := rlen
  have clen2 : (spanYields ds (r.x, r.right)).length = min ds.length (r.right - r.x) := clen
  have hylr : Rows.yields ds (Rows.new r) = (spanYields ds (r.y, r.bottom)).map (rowAt r) :=
    rows_yields_span ds (Rows.new r)
  have hylc : Columns.yields ds (Columns.new r) =
      (spanYields ds (r.x, r.right)).map (columnAt r) :=
    columns_yields_span ds (Columns.new r)
  refine ⟨?_, ?_, ?_, ?_⟩
  · rw [hylr, map_y_rowAt]
    exact rnd
  · intro hsat hk
    rw [hylr, List.length_map, rlen2]
    omega
  · rw [hylc, map_x_columnAt]
    exact cnd
  · intro hsat hk
    rw [hylc, List.length_map, clen2]
    omega

theorem rows_columns_meet_in_the_middle_witness :
    (Rect.new 0 0 2 3).isU16 ∧
    ((Rect.new 0 0 2 3).y + (Rect.new 0 0 2 3).height ≤ 65535) ∧
    ((Rect.new 0 0 2 3).height ≤ [Dir.F, Dir.B, Dir.F].length) ∧
    (Rows.yields [Dir.F, Dir.B, Dir.F] (Rows.new (Rect.new 0 0 2 3))).length =
      (Rect.new 0 0 2 3).height :=
  ⟨by decide, by decide, by decide,
   (rows_columns_meet_in_the_middle (Rect.new 0 0 2 3) (by decide)
     [Dir.F, Dir.B, Dir.F]).2.1 (by decide) (by decide)⟩

theorem rows_columns_meet_in_the_middle_counterexample :
    (Rect.new 0 65535 1 1).height = 1 ∧
    ((Rows.new (Rect.new 0 65535 1 1)).next).1 = none ∧
    ((Rows.new (Rect.new 0 65535 1 1)).next_back).1 = none ∧
    (Rows.yields [Dir.F] (Rows.new (Rect.new 0 65535 1 1))).length = 0 := by
  decide

/-- C8: after any sequence of pulls, the copied source region of each of the
three iterators is unchanged: it equals the region passed to `new`. -/
theorem rect_field_immutable (r : Rect) (ds : List Dir) (n : Nat) :
    (Rows.run ds (Rows.new r)).rect = r ∧
    (Columns.run ds (Columns.new r)).rect = r ∧
    (Positions.runN n (Positions.new r)).rect = r := by
  refine ⟨?_, ?_, ?_⟩
  · rw [rows_run_span]
    rfl
  · rw [columns_run_span]
    rfl
  · rw [Positions.runN_rect]
    rfl

/-- C5: for the region `{x:0, y:0, width:65535, height:1}`, the first 65534
forward pulls on the `Columns` iterator all yield, the next pull yields
exactly the unit-width column at x index 65534, and from then on both `next`
and `next_back` yield nothing and leave the state unchanged: iteration is
exact at the representable boundary, without wraparound. -/
theorem columns_boundary_saturation :
    (Columns.yields (List.replicate 65534 Dir.F)
      (Columns.new (Rect.new 0 0 65535 1))).length = 65534 ∧
    ((Columns.run (List.replicate 65534 Dir.F)
      (Columns.new (Rect.new 0 0 65535 1))).next).1 = some (Rect.new 65534 0 1 1) ∧
    (((Columns.run (List.replicate 65534 Dir.F)
      (Columns.new (Rect.new 0 0 65535 1))).next).2).next =
      (none, ((Columns.run (List.replicate 65534 Dir.F)
        (Columns.new (Rect.new 0 0 65535 1))).next).2) ∧
    (((Columns.run (List.replicate 65534 Dir.F)
      (Columns.new (Rect.new 0 0 65535 1))).next).2).next_back =
      (none, ((Columns.run (List.replicate 65534 Dir.F)
        (Columns.new (Rect.new 0 0 65535 1))).next).2) := by
  have hinv : spanInv (0, 65535) := ⟨by omega, by omega⟩
  have hrun : Columns.run (List.replicate 65534 Dir.F) (Columns.new (Rect.new 0 0 65535 1)) =
      ⟨Rect.new 0 0 65535 1, 65534, 65535⟩ := by
    have heq : Columns.run (List.replicate 65534 Dir.F) (Columns.new (Rect.new 0 0 65535 1)) =
        ⟨Rect.new 0 0 65535 1, (spanRun (List.replicate 65534 Dir.F) (0, 65535)).1,
         (spanRun (List.replicate 65534 Dir.F) (0, 65535)).2⟩ :=
      columns_run_span (List.replicate 65534 Dir.F) (Columns.new (Rect.new 0 0 65535 1))
    rw [heq, spanRun_replicate_F 65534 (0, 65535) hinv]
    have hm : min (0 + 65534) 65535 = 65534 := by omega
    rw [show ((min (0 + 65534) 65535, 65535) : Nat × Nat).1 = min (0 + 65534) 65535 from rfl]
    rw [hm]
  have hlen : (Columns.yields (List.replicate 65534 Dir.F)
      (Columns.new (Rect.new 0 0 65535 1))).length = 65534 := by
    have heq : Columns.yields (List.replicate 65534 Dir.F) (Columns.new (Rect.new 0 0 65535 1)) =
        (spanYields (List.replicate 65534 Dir.F) (0, 65535)).map
          (columnAt (Rect.new 0 0 65535 1)) :=
      columns_yields_span (List.replicate 65534 Dir.F) (Columns.new (Rect.new 0 0 65535 1))
    rw [heq, List.length_map]
    have hl : (spanYields (List.replicate 65534 Dir.F) (0, 65535)).length =
        min (List.replicate 65534 Dir.F).length ((65535 : Nat) - 0) :=
      (spanRun_spec (List.replicate 65534 Dir.F) (0, 65535) hinv).2.2.2.2.1
    rw [hl, List.length_replicate]
    omega
  refine ⟨hlen, ?_, ?_, ?_⟩ <;> rw [hrun] <;> decide

instance (s : Positions) : Decidable s.inv := by
  unfold Positions.inv
  infer_instance

/-- One step of `Positions::next` on a state satisfying the invariant of a
region whose right edge does not saturate: the invariant is preserved, the
region is unchanged, the exact remaining count drops by one (staying at zero
once exhausted), and the pull yields nothing exactly when the remaining
count is zero, in which case the state is unchanged. -/
theorem Positions.next_spec (s : Positions) (hsatx : s.rect.x + s.rect.width ≤ 65535)
    (hinv : Positions.inv s) :
    Positions.inv (Positions.next s).2 ∧
    (Positions.next s).2.rect = s.rect ∧
    Positions.remaining (Positions.next s).2 = Positions.remaining s - 1 ∧
    ((Positions.next s).1 = none ↔ Positions.remaining s = 0) ∧
    (Positions.remaining s = 0 → (Positions.next s).2 = s) := by
  obtain ⟨r, cx, cy⟩ := s
  have hsx : r.x + r.width ≤ 65535 := hsatx
  have hbd := Rect.bottom_def r
  have hrd := Rect.right_def r
  have e : Positions.next ⟨r, ⟨cx, cy⟩⟩ =
      if cy ≥ r.bottom then (none, ⟨r, ⟨cx, cy⟩⟩)
      else if (cx + 1) % 65536 ≥ r.right then
        (some ⟨cx, cy⟩, ⟨r, ⟨r.x, (cy + 1) % 65536⟩⟩)
      else (some ⟨cx, cy⟩, ⟨r, ⟨(cx + 1) % 65536, cy⟩⟩) := rfl
  have er : ∀ a b : Nat, Positions.remaining ⟨r, ⟨a, b⟩⟩ =
      if r.bottom ≤ b then 0 else (r.right - a) + (r.bottom - b - 1) * r.width :=
    fun a b => rfl
  have ei : ∀ a b : Nat, Positions.inv ⟨r, ⟨a, b⟩⟩ ↔
      ((r.x ≤ a ∧ a < r.right ∧ r.y ≤ b ∧ b < r.bottom) ∨ (a = r.x ∧ b = r.bottom)) :=
    fun a b => Iff.rfl
  rcases (ei cx cy).mp hinv with ⟨h1, h2, h3, h4⟩ | ⟨h1, h2⟩
  · have hnotend : ¬ cy ≥ r.bottom := by omega
    have hcx1 : (cx + 1) % 65536 = cx + 1 := Nat.mod_eq_of_lt (by omega)
    have hrempos : Positions.remaining ⟨r, ⟨cx, cy⟩⟩ =
        (r.right - cx) + (r.bottom - cy - 1) * r.width := by
      rw [er, if_neg (by omega)]
    by_cases hwrap : (cx + 1) % 65536 ≥ r.right
    · have hcy1 : (cy + 1) % 65536 = cy + 1 := Nat.mod_eq_of_lt (by omega)
      have e1 : (Positions.next ⟨r, ⟨cx, cy⟩⟩).1 = some ⟨cx, cy⟩ := by
        rw [e, if_neg hnotend, if_pos hwrap]
      have e2 : (Positions.next ⟨r, ⟨cx, cy⟩⟩).2 = ⟨r, ⟨r.x, cy + 1⟩⟩ := by
        rw [e, if_neg hnotend, if_pos hwrap, hcy1]
      have hreach : cx + 1 = r.right := by omega
      refine ⟨?_, ?_, ?_, ?_, ?_⟩
      · rw [e2, ei]
        rcases Nat.lt_or_ge (cy + 1) r.bottom with hlt2 | hge2
        · exact Or.inl ⟨Nat.le_refl _, by omega, by omega, hlt2⟩
        · exact Or.inr ⟨rfl, by omega⟩
      · rw [e2]
      · rw [e2, er, hrempos]
        rcases Nat.lt_or_ge (cy + 1) r.bottom with hlt2 | hge2
        · rw [if_neg (by omega)]
          have hp : (r.bottom - cy - 1) * r.width =
              (r.bottom - (cy + 1) - 1) * r.width + r.width := by
            have h5 : r.bottom - cy - 1 = (r.bottom - (cy + 1) - 1) + 1 := by omega
            rw [h5, Nat.succ_mul]
          omega
        · rw [if_pos (by omega)]
          have hz : (r.bottom - cy - 1) * r.width = 0 := by
            have h5 : r.bottom - cy - 1 = 0 := by omega
            rw [h5, Nat.zero_mul]
          omega
      · rw [e1, hrempos]
        constructor
        · intro hc
          exact absurd hc (by simp)
        · intro hc
          exact absurd hc (by omega)
      · intro hc
        rw [hrempos] at hc
        exact absurd hc (by omega)
    · have e1 : (Positions.next ⟨r, ⟨cx, cy⟩⟩).1 = some ⟨cx, cy⟩ := by
        rw [e, if_neg hnotend, if_neg hwrap]
      have e2 : (Positions.next ⟨r, ⟨cx, cy⟩⟩).2 = ⟨r, ⟨cx + 1, cy⟩⟩ := by
        rw [e, if_neg hnotend, if_neg hwrap, hcx1]
      have hlt : cx + 1 < r.right := by omega
      refine ⟨?_, ?_, ?_, ?_, ?_⟩
      · rw [e2, ei]
        exact Or.inl ⟨by omega, hlt, h3, h4⟩
      · rw [e2]
      · rw [e2, er, hrempos, if_neg (by omega)]
        omega
      · rw [e1, hrempos]
        constructor
        · intro hc
          exact absurd hc (by simp)
        · intro hc
          exact absurd hc (by omega)
      · intro hc
        rw [hrempos] at hc
        exact absurd hc (by omega)
  · have hend : cy ≥ r.bottom := by omega
    have e1 : (Positions.next ⟨r, ⟨cx, cy⟩⟩).1 = none := by
      rw [e, if_pos hend]
    have e2 : (Positions.next ⟨r, ⟨cx, cy⟩⟩).2 = ⟨r, ⟨cx, cy⟩⟩ := by
      rw [e, if_pos hend]
    have hrem0 : Positions.remaining ⟨r, ⟨cx, cy⟩⟩ = 0 := by
      rw [er, if_pos (by omega)]
    refine ⟨?_, ?_, ?_, ?_, ?_⟩
    · rw [e2]
      exact hinv
    · rw [e2]
    · rw [e2, hrem0]
    · rw [e1, hrem0]
      simp
    · intro hc
      rw [e2]

/-- The invariant holds at `Positions::new` for a `u16` region whose right
edge does not saturate and that is not of the degenerate width-0,
positive-height shape.  The bottom edge may saturate: the start position is
then already the exhaustion marker `(x, bottom())` when `y = bottom()`, or a
proper interior position otherwise. -/
theorem Positions.inv_new (r : Rect) (hy : r.y ≤ 65535)
    (hsatx : r.x + r.width ≤ 65535) (hdeg : r.width = 0 → r.height = 0) :
    Positions.inv (Positions.new r) := by
  have hbd := Rect.bottom_def r
  have hrd := Rect.right_def r
  have ei : Positions.inv (Positions.new r) ↔
      ((r.x ≤ r.x ∧ r.x < r.right ∧ r.y ≤ r.y ∧ r.y < r.bottom) ∨
       (r.x = r.x ∧ r.y = r.bottom)) := Iff.rfl
  rw [ei]
  rcases Nat.lt_or_ge r.y r.bottom with hlt | hge
  · have hh : 0 < r.height := by omega
    have hw : 0 < r.width := by
      rcases Nat.eq_zero_or_pos r.width with hw0 | hw0
      · exact absurd (hdeg hw0) (by omega)
      · exact hw0
    exact Or.inl ⟨Nat.le_refl _, by omega, Nat.le_refl _, hlt⟩
  · exact Or.inr ⟨rfl, by omega⟩

/-- Running `n` forward pulls preserves the invariant and the region, and
decreases the exact remaining count by `n` (saturating at zero). -/
theorem Positions.runN_spec (n : Nat) (s : Positions)
    (hsatx : s.rect.x + s.rect.width ≤ 65535) (hinv : Positions.inv s) :
    Positions.inv (Positions.runN n s) ∧
    (Positions.runN n s).rect = s.rect ∧
    Positions.remaining (Positions.runN n s) = Positions.remaining s - n := by
  induction n generalizing s with
  | zero => exact ⟨hinv, rfl, (Nat.sub_zero (Positions.remaining s)).symm⟩
  | succ m ih =>
    obtain ⟨st_inv, st_rect, st_rem, _, _⟩ := Positions.next_spec s hsatx hinv
    have hsatx2 : (Positions.next s).2.rect.x + (Positions.next s).2.rect.width ≤ 65535 := by
      rw [st_rect]
      exact hsatx
    obtain ⟨ih_inv, ih_rect, ih_rem⟩ := ih (Positions.next s).2 hsatx2 st_inv
    have hstep : Positions.runN (m + 1) s = Positions.runN m (Positions.next s).2 := rfl
    rw [hstep]
    refine ⟨ih_inv, ?_, ?_⟩
    · rw [ih_rect, st_rect]
    · rw [ih_rem, st_rem]
      omega

/-- The number of non-empty yields of `k` forward pulls is the minimum of
`k` and the exact remaining count. -/
theorem Positions.yieldsN_length (k : Nat) (s : Positions)
    (hsatx : s.rect.x + s.rect.width ≤ 65535) (hinv : Positions.inv s) :
    (Positions.yieldsN k s).length = min k (Positions.remaining s) := by
  induction k generalizing s with
  | zero => simp [Positions.yieldsN]
  | succ m ih =>
    obtain ⟨st_inv, st_rect, st_rem, st_none, st_fix⟩ := Positions.next_spec s hsatx hinv
    have hsatx2 : (Positions.next s).2.rect.x + (Positions.next s).2.rect.width ≤ 65535 := by
      rw [st_rect]
      exact hsatx
    have estep : Positions.yieldsN (m + 1) s =
        (match (Positions.next s).1 with
         | some p => p :: Positions.yieldsN m (Positions.next s).2
         | none => Positions.yieldsN m (Positions.next s).2) := rfl
    rcases Nat.eq_zero_or_pos (Positions.remaining s) with hz | hpos
    · have hnone : (Positions.next s).1 = none := st_none.mpr hz
      rw [estep, hnone, ih (Positions.next s).2 hsatx2 st_inv, st_rem]
      omega
    · have hsome : (Positions.next s).1 ≠ none := by
        intro hc
        exact absurd (st_none.mp hc) (by omega)
      cases hq : (Positions.next s).1 with
      | none => exact absurd hq hsome
      | some p =>
        rw [estep, hq]
        show (p :: Positions.yieldsN m (Positions.next s).2).length = _
        rw [List.length_cons, ih (Positions.next s).2 hsatx2 st_inv, st_rem]
        omega

/-- For a region whose right edge does not saturate and whose area is at
most `65535`, the `size_hint` lower bound equals the exact remaining count
on every state satisfying the invariant.  The bottom edge may saturate:
`size_hint`'s saturating row count `height ⊕ y ⊖ current.y` agrees with the
saturated `bottom()` that `next` tests against. -/
theorem Positions.size_hint_eq (s : Positions) (hsatx : s.rect.x + s.rect.width ≤ 65535)
    (harea : s.rect.width * s.rect.height ≤ 65535) (hinv : Positions.inv s) :
    (Positions.size_hint s).1 = Positions.remaining s := by
  obtain ⟨r, cx, cy⟩ := s
  have hsx : r.x + r.width ≤ 65535 := hsatx
  have har : r.width * r.height ≤ 65535 := harea
  have har2 : r.height * r.width ≤ 65535 := by rw [Nat.mul_comm]; exact har
  have hbd := Rect.bottom_def r
  have hrd := Rect.right_def r
  have hm1 : min (r.height + r.y) 65535 = r.bottom := by
    rw [Nat.add_comm r.height r.y]
    exact hbd.symm
  have hm2 : min (r.width + r.x) 65535 = r.right := by
    rw [Nat.add_comm r.width r.x]
    exact hrd.symm
  have esh : (Positions.size_hint ⟨r, ⟨cx, cy⟩⟩).1 =
      if min (r.height + r.y) 65535 - cy = 0 then 0
      else min ((min (r.width + r.x) 65535 - cx) +
        min ((min (r.height + r.y) 65535 - cy - 1) * r.width) 65535) 65535 := by
    show (if min (r.height + r.y) 65535 - cy = 0 then ((0 : Nat), (none : Option Nat))
      else (min ((min (r.width + r.x) 65535 - cx) +
        min ((min (r.height + r.y) 65535 - cy - 1) * r.width) 65535) 65535, none)).1 = _
    by_cases hc : min (r.height + r.y) 65535 - cy = 0
    · rw [if_pos hc, if_pos hc]
    · rw [if_neg hc, if_neg hc]
  have er : Positions.remaining ⟨r, ⟨cx, cy⟩⟩ =
      if r.bottom ≤ cy then 0 else (r.right - cx) + (r.bottom - cy - 1) * r.width := rfl
  rw [esh, er, hm1, hm2]
  rcases (show ((r.x ≤ cx ∧ cx < r.right ∧ r.y ≤ cy ∧ cy < r.bottom) ∨
      (cx = r.x ∧ cy = r.bottom)) from hinv) with ⟨h1, h2, h3, h4⟩ | ⟨h1, h2⟩
  · rw [if_neg (by omega), if_neg (by omega)]
    have hh1 : 1 ≤ r.height := by omega
    have e2 : (r.bottom - cy - 1) * r.width ≤ (r.height - 1) * r.width :=
      Nat.mul_le_mul_right _ (by omega)
    have e1 : (r.height - 1) * r.width + r.width = r.height * r.width := by
      have h5 : r.height - 1 + 1 = r.height := by omega
      calc (r.height - 1) * r.width + r.width
          = (r.height - 1 + 1) * r.width := by rw [Nat.succ_mul]
        _ = r.height * r.width := by rw [h5]
    omega
  · rw [if_pos (by omega), if_pos (by omega)]

/-- C2 (amended): after any sequence of pulls, the `size_hint` lower bound
equals the number of items a subsequent full drain (any long-enough sequence
of further pulls) yields — in particular 0 after exhaustion, with no
underflow — for `Rows` when the region's bottom edge does not saturate, for
`Columns` when its right edge does not saturate, and for `Positions` when
its right edge does not saturate, the area is at most 65535 (the `u16` cap
of its saturating `size_hint` arithmetic) and the region is not of the
width-0, positive-height shape (on which `next` is out of step with
`size_hint`); the `Positions` bottom edge may saturate, since `size_hint`
saturates its row count the same way `next` saturates `bottom()`. -/
theorem size_hint_matches_drain (r : Rect) (hr : r.isU16) :
    (r.y + r.height ≤ 65535 → ∀ ds ds2 : List Dir,
      (Rows.size_hint (Rows.run ds (Rows.new r))).1 ≤ ds2.length →
      (Rows.yields ds2 (Rows.run ds (Rows.new r))).length =
        (Rows.size_hint (Rows.run ds (Rows.new r))).1) ∧
    (r.x + r.width ≤ 65535 → ∀ ds ds2 : List Dir,
      (Columns.size_hint (Columns.run ds (Columns.new r))).1 ≤ ds2.length →
      (Columns.yields ds2 (Columns.run ds (Columns.new r))).length =
        (Columns.size_hint (Columns.run ds (Columns.new r))).1) ∧
    (r.x + r.width ≤ 65535 → r.width * r.height ≤ 65535 →
      (r.width = 0 → r.height = 0) → ∀ n k : Nat,
      (Positions.size_hint (Positions.runN n (Positions.new r))).1 ≤ k →
      (Positions.yieldsN k (Positions.runN n (Positions.new r))).length =
        (Positions.size_hint (Positions.runN n (Positions.new r))).1) := by
  obtain ⟨hx, hy, hw, hh⟩ := hr
  have hbd := Rect.bottom_def r
  have hrd := Rect.right_def r
  refine ⟨?_, ?_, ?_⟩
  · intro hsat ds ds2 hk
    have hinv : spanInv (r.y, r.bottom) := ⟨by omega, by omega⟩
    obtain ⟨pinv, plo, phi, _, _, _, _⟩ := spanRun_spec ds (r.y, r.bottom) hinv
    have pinv2 : (spanRun ds (r.y, r.bottom)).1 ≤ (spanRun ds (r.y, r.bottom)).2 ∧
        (spanRun ds (r.y, r.bottom)).2 ≤ 65535 := pinv
    have plo2 : r.y ≤ (spanRun ds (r.y, r.bottom)).1 := plo
    have phi2 : (spanRun ds (r.y, r.bottom)).2 ≤ r.bottom := phi
    have hrun : Rows.run ds (Rows.new r) =
        ⟨r, (spanRun ds (r.y, r.bottom)).1, (spanRun ds (r.y, r.bottom)).2⟩ :=
      rows_run_span ds (Rows.new r)
    have hsh : (Rows.size_hint (Rows.run ds (Rows.new r))).1 =
        (spanRun ds (r.y, r.bottom)).2 - (spanRun ds (r.y, r.bottom)).1 := by
      rw [hrun]
      show (r.height - ((spanRun ds (r.y, r.bottom)).1 - r.y)) -
        (r.bottom - (spanRun ds (r.y, r.bottom)).2) = _
      omega
    have hyl2 : Rows.yields ds2 (Rows.run ds (Rows.new r)) =
        (spanYields ds2 (spanRun ds (r.y, r.bottom))).map (rowAt r) := by
      rw [hrun]
      exact rows_yields_span ds2
        ⟨r, (spanRun ds (r.y, r.bottom)).1, (spanRun ds (r.y, r.bottom)).2⟩
    have hlen : (spanYields ds2 (spanRun ds (r.y, r.bottom))).length =
        min ds2.length ((spanRun ds (r.y, r.bottom)).2 - (spanRun ds (r.y, r.bottom)).1) :=
      (spanRun_spec ds2 (spanRun ds (r.y, r.bottom)) pinv).2.2.2.2.1
    rw [hsh] at hk
    rw [hyl2, List.length_map, hlen, hsh]
    omega
  · intro hsat ds ds2 hk
    have hinv : spanInv (r.x, r.right) := ⟨by omega, by omega⟩
    obtain ⟨pinv, plo, phi, _, _, _, _⟩ := spanRun_spec ds (r.x, r.right) hinv
    have pinv2 : (spanRun ds (r.x, r.right)).1 ≤ (spanRun ds (r.x, r.right)).2 ∧
        (spanRun ds (r.x, r.right)).2 ≤ 65535 := pinv
    have plo2 : r.x ≤ (spanRun ds (r.x, r.right)).1 := plo
    have phi2 : (spanRun ds (r.x, r.right)).2 ≤ r.right := phi
    have hrun : Columns.run ds (Columns.new r) =
        ⟨r, (spanRun ds (r.x, r.right)).1, (spanRun ds (r.x, r.right)).2⟩ :=
      columns_run_span ds (Columns.new r)
    have hsh : (Columns.size_hint (Columns.run ds (Columns.new r))).1 =
        (spanRun ds (r.x, r.right)).2 - (spanRun ds (r.x, r.right)).1 := by
      rw [hrun]
      show (r.width - ((spanRun ds (r.x, r.right)).1 - r.x)) -
        (r.right - (spanRun ds (r.x, r.right)).2) = _
      omega
    have hyl2 : Columns.yields ds2 (Columns.run ds (Columns.new r)) =
        (spanYields ds2 (spanRun ds (r.x, r.right))).map (columnAt r) := by
      rw [hrun]
      exact columns_yields_span ds2
        ⟨r, (spanRun ds (r.x, r.right)).1, (spanRun ds (r.x, r.right)).2⟩
    have hlen : (spanYields ds2 (spanRun ds (r.x, r.right))).length =
        min ds2.length ((spanRun ds (r.x, r.right)).2 - (spanRun ds (r.x, r.right)).1) :=
      (spanRun_spec ds2 (spanRun ds (r.x, r.right)) pinv).2.2.2.2.1
    rw [hsh] at hk
    rw [hyl2, List.length_map, hlen, hsh]
    omega
  · intro hsatx harea hdeg n k hk
    have hinv0 : Positions.inv (Positions.new r) := Positions.inv_new r hy hsatx hdeg
    have hsatx0 : (Positions.new r).rect.x + (Positions.new r).rect.width ≤ 65535 := hsatx
    obtain ⟨sinv, srect, srem⟩ := Positions.runN_spec n (Positions.new r) hsatx0 hinv0
    have hsatx1 : (Positions.runN n (Positions.new r)).rect.x +
        (Positions.runN n (Positions.new r)).rect.width ≤ 65535 := by
      rw [srect]
      exact hsatx
    have harea1 : (Positions.runN n (Positions.new r)).rect.width *
        (Positions.runN n (Positions.new r)).rect.height ≤ 65535 := by
      rw [srect]
      exact harea
    have hsh := Positions.size_hint_eq (Positions.runN n (Positions.new r))
      hsatx1 harea1 sinv
    have hcnt := Positions.yieldsN_length k (Positions.runN n (Positions.new r)) hsatx1 sinv
    rw [hsh] at hk
    rw [hcnt, hsh]
    omega

theorem size_hint_matches_drain_witness :
    (Rect.new 0 0 2 3).isU16 ∧
    (Rows.yields [Dir.F, Dir.B, Dir.F] (Rows.run [Dir.F] (Rows.new (Rect.new 0 0 2 3)))).length =
      (Rows.size_hint (Rows.run [Dir.F] (Rows.new (Rect.new 0 0 2 3)))).1 ∧
    (Columns.yields [Dir.F, Dir.B] (Columns.run [Dir.B]
        (Columns.new (Rect.new 0 0 2 3)))).length =
      (Columns.size_hint (Columns.run [Dir.B] (Columns.new (Rect.new 0 0 2 3)))).1 ∧
    (Positions.yieldsN 6 (Positions.runN 1 (Positions.new (Rect.new 0 0 2 3)))).length =
      (Positions.size_hint (Positions.runN 1 (Positions.new (Rect.new 0 0 2 3)))).1 :=
  ⟨by decide,
   (size_hint_matches_drain (Rect.new 0 0 2 3) (by decide)).1 (by decide)
     [Dir.F] [Dir.F, Dir.B, Dir.F] (by decide),
   (size_hint_matches_drain (Rect.new 0 0 2 3) (by decide)).2.1 (by decide)
     [Dir.B] [Dir.F, Dir.B] (by decide),
   (size_hint_matches_drain (Rect.new 0 0 2 3) (by decide)).2.2 (by decide) (by decide)
     (by decide) 1 6 (by decide)⟩

theorem size_hint_matches_drain_counterexample :
    (Rows.size_hint (Rows.new (Rect.new 0 65535 1 1))).1 = 1 ∧
    ((Rows.new (Rect.new 0 65535 1 1)).next).1 = none ∧
    (Rows.yields [Dir.F] (Rows.new (Rect.new 0 65535 1 1))).length = 0 ∧
    (Positions.size_hint (Positions.new (Rect.new 0 0 0 2))).1 = 0 ∧
    (Positions.yieldsN 2 (Positions.new (Rect.new 0 0 0 2))).length = 2 ∧
    (Positions.size_hint (Positions.new (Rect.new 65534 0 3 2))).1 = 4 ∧
    (Positions.yieldsN 4 (Positions.new (Rect.new 65534 0 3 2))).length = 2 ∧
    (Positions.size_hint (Positions.new (Rect.new 0 0 256 256))).1 = 65535 ∧
    (Positions.yieldsN 65536 (Positions.new (Rect.new 0 0 256 256))).length = 65536 := by
  refine ⟨by decide, by decide, by decide, by decide, by decide, by decide, by decide,
    by decide, ?_⟩
  have h1 := Positions.yieldsN_length 65536 (Positions.new (Rect.new 0 0 256 256))
    (by decide) (by decide)
  rw [h1]
  decide

/-- C3 (evaluation at the failing input): on the width-0, height-2 region
`{x:0, y:0, width:0, height:2}` the `Positions` iterator yields the two
positions `(0,0)` and `(0,1)` — not nothing, as the documented row-major
enumeration of the (empty) region requires — because the exhaustion test
checks only the y coordinate against `bottom()`. -/
theorem positions_zero_width_eval :
    (Rect.new 0 0 0 2).width * (Rect.new 0 0 0 2).height = 0 ∧
    Positions.yieldsN 3 (Positions.new (Rect.new 0 0 0 2)) =
      [Position.new 0 0, Position.new 0 1] ∧
    (Positions.runN 2 (Positions.new (Rect.new 0 0 0 2))).next =
      (none, Positions.runN 2 (Positions.new (Rect.new 0 0 0 2))) := by
  decide

/-- For a width-0 region with `x < 65535`, from any current position
`(x, cy)` with `cy` at most `bottom()`, `k` forward pulls yield the column of
positions `(x, cy), (x, cy+1), ...` down to `bottom() - 1` (clipped to `k`). -/
theorem Positions.yieldsN_zero_width (r : Rect) (hw : r.width = 0) (hx : r.x < 65535)
    (k : Nat) (cy : Nat) (hcy : cy ≤ r.bottom) :
    Positions.yieldsN k ⟨r, Position.new r.x cy⟩ =
      (List.range (min k (r.bottom - cy))).map (fun i => Position.new r.x (cy + i)) := by
  have hbd := Rect.bottom_def r
  have hrd := Rect.right_def r
  have hrt : r.right = r.x := by
    rw [hrd, hw]
    omega
  induction k generalizing cy with
  | zero => simp [Positions.yieldsN]
  | succ n ih =>
    have e : Positions.next ⟨r, Position.new r.x cy⟩ =
        if cy ≥ r.bottom then (none, ⟨r, Position.new r.x cy⟩)
        else if (r.x + 1) % 65536 ≥ r.right then
          (some (Position.new r.x cy), ⟨r, Position.new r.x ((cy + 1) % 65536)⟩)
        else (some (Position.new r.x cy),
          ⟨r, Position.new ((r.x + 1) % 65536) cy⟩) := rfl
    have estep : Positions.yieldsN (n + 1) ⟨r, Position.new r.x cy⟩ =
        (match (Positions.next ⟨r, Position.new r.x cy⟩).1 with
         | some p => p :: Positions.yieldsN n (Positions.next ⟨r, Position.new r.x cy⟩).2
         | none => Positions.yieldsN n (Positions.next ⟨r, Position.new r.x cy⟩).2) := rfl
    rcases Nat.lt_or_ge cy r.bottom with hlt | hge
    · have hcy1 : (cy + 1) % 65536 = cy + 1 := Nat.mod_eq_of_lt (by omega)
      have hnext : Positions.next ⟨r, Position.new r.x cy⟩ =
          (some (Position.new r.x cy), ⟨r, Position.new r.x (cy + 1)⟩) := by
        rw [e, if_neg (by omega), if_pos (by omega), hcy1]
      rw [estep, hnext]
      show Position.new r.x cy :: Positions.yieldsN n ⟨r, Position.new r.x (cy + 1)⟩ = _
      rw [ih (cy + 1) (by omega)]
      have hmm : min (n + 1) (r.bottom - cy) = min n (r.bottom - (cy + 1)) + 1 := by omega
      rw [hmm, List.range_succ_eq_map, List.map_cons, List.map_map]
      have hhead : Position.new r.x (cy + 0) = Position.new r.x cy := by
        rw [Nat.add_zero]
      have htail : (List.range (min n (r.bottom - (cy + 1)))).map
          ((fun i => Position.new r.x (cy + i)) ∘ Nat.succ) =
          (List.range (min n (r.bottom - (cy + 1)))).map
            (fun i => Position.new r.x (cy + 1 + i)) := by
        refine List.map_congr_left ?_
        intro a ha
        show Position.new r.x (cy + (a + 1)) = Position.new r.x (cy + 1 + a)
        have hac : cy + (a + 1) = cy + 1 + a := by omega
        rw [hac]
      rw [hhead, htail]
    · have hcyb : cy = r.bottom := by omega
      have hnext : Positions.next ⟨r, Position.new r.x cy⟩ =
          (none, ⟨r, Position.new r.x cy⟩) := by
        rw [e, if_pos (by omega)]
      rw [estep, hnext]
      show Positions.yieldsN n ⟨r, Position.new r.x cy⟩ = _
      rw [ih cy hcy]
      have hz : r.bottom - cy = 0 := by omega
      rw [hz]
      simp

/-- C9 (amended): for every `u16` region with width 0, `x < 65535`, height
`h > 0` and a non-saturating bottom edge, the `Positions` iterator yields
exactly `h` positions, namely `(x, y+i)` for `i < h`, because the exhaustion
test checks only the y coordinate against `bottom()`. -/
theorem positions_zero_width_yields (r : Rect) (hr : r.isU16) (hw : r.width = 0)
    (hx : r.x < 65535) (hsat : r.y + r.height ≤ 65535) (k : Nat) (hk : r.height ≤ k) :
    Positions.yieldsN k (Positions.new r) =
      (List.range r.height).map (fun i => Position.new r.x (r.y + i)) := by
  have hbd := Rect.bottom_def r
  have h1 : Positions.yieldsN k ⟨r, Position.new r.x r.y⟩ =
      (List.range (min k (r.bottom - r.y))).map (fun i => Position.new r.x (r.y + i)) :=
    Positions.yieldsN_zero_width r hw hx k r.y (by omega)
  have h2 : Positions.yieldsN k (Positions.new r) =
      (List.range (min k (r.bottom - r.y))).map (fun i => Position.new r.x (r.y + i)) := h1
  rw [h2]
  have h3 : min k (r.bottom - r.y) = r.height := by omega
  rw [h3]

theorem positions_zero_width_yields_witness :
    (Rect.new 3 1 0 2).isU16 ∧ (Rect.new 3 1 0 2).width = 0 ∧
    (Rect.new 3 1 0 2).x < 65535 ∧
    (Rect.new 3 1 0 2).y + (Rect.new 3 1 0 2).height ≤ 65535 ∧
    (Rect.new 3 1 0 2).height ≤ 5 ∧
    Positions.yieldsN 5 (Positions.new (Rect.new 3 1 0 2)) =
      (List.range (Rect.new 3 1 0 2).height).map
        (fun i => Position.new (Rect.new 3 1 0 2).x ((Rect.new 3 1 0 2).y + i)) :=
  ⟨by decide, by decide, by decide, by decide, by decide,
   positions_zero_width_yields (Rect.new 3 1 0 2) (by decide) (by decide) (by decide)
     (by decide) 5 (by decide)⟩

theorem positions_zero_width_yields_counterexample :
    (Rect.new 65535 0 0 1).width = 0 ∧ (Rect.new 65535 0 0 1).height = 1 ∧
    Positions.yieldsN 2 (Positions.new (Rect.new 65535 0 0 1)) =
      [Position.new 65535 0, Position.new 0 0] ∧
    (Rect.new 0 65535 0 1).width = 0 ∧ (Rect.new 0 65535 0 1).height = 1 ∧
    Positions.yieldsN 1 (Positions.new (Rect.new 0 65535 0 1)) = [] := by
  decide

/-- The loop of `Points::draw` appends to the paint trace, in input order,
exactly one record per coordinate whose projection succeeds (at the
projected cell, with the given color) and none for a coordinate whose
projection fails, which also leaves the processing of the remaining
coordinates unaffected; the projection itself is never altered. -/
theorem Points.drawLoop_spec {α γ : Type} (color : γ) (coords : List α)
    (painter : Painter α γ) :
    (Points.drawLoop color painter coords).painted = painter.painted ++
      coords.filterMap (fun c => (painter.get_point c).map (fun q => (q.1, q.2, color))) ∧
    (Points.drawLoop color painter coords).get_point = painter.get_point := by
  induction coords generalizing painter with
  | nil => simp [Points.drawLoop]
  | cons c rest ih =>
    have e : Points.drawLoop color painter (c :: rest) =
        match painter.get_point c with
        | some q => Points.drawLoop color (painter.paint q.1 q.2 color) rest
        | none => Points.drawLoop color painter rest := rfl
    rw [e]
    cases hq : painter.get_point c with
    | none =>
      obtain ⟨ih1, ih2⟩ := ih painter
      refine ⟨?_, ih2⟩
      rw [ih1, List.filterMap_cons]
      simp [hq]
    | some q =>
      obtain ⟨ih1, ih2⟩ := ih (painter.paint q.1 q.2 color)
      constructor
      · rw [ih1]
        simp [Painter.paint, List.filterMap_cons, hq]
      · rw [ih2]
        rfl

/-- C7: `Points::draw` processes the coordinate pairs in input-sequence
order; each pair whose projection returns a cell causes exactly one paint
record at that cell with the shape's color, and each pair whose projection
fails causes no paint record and leaves the processing of the remaining
pairs (and the projection) unaffected: the paint trace is exactly the
in-order `filterMap` of the projection over the input. -/
theorem points_draw_projection_drop {α γ : Type} (shape : Points α γ)
    (painter : Painter α γ) :
    (shape.draw painter).painted = painter.painted ++
      shape.coords.filterMap
        (fun c => (painter.get_point c).map (fun q => (q.1, q.2, shape.color))) ∧
    (shape.draw painter).get_point = painter.get_point :=
  Points.drawLoop_spec shape.color shape.coords painter
